import Mathlib

/-!
# Verification of the keylog / SFB analysis core of `layout_gen`

Shallow embedding of the log-interpretation and same-finger-bigram (SFB)
analysis engine:

* `src/parse/render_opts.rs`: `Finger`, `MatrixHalf`, `FingerAssignment`
  (with its custom `Ord`), `PhysicalPos` and `PhysicalPos::is_sfb`.
* `src/parse/keymap.rs`: `Key`, `Layer`, `Combo` (with the combo/key and
  combo/combo SFB tests), `Keymap::find_key_by_matrix`, `Keymap::get_layer_id`.
* `src/keylog/stats.rs`: `KeylogEntry`, `Sfb`, `SfbStats`,
  `convert_keylog_entries`, `KeylogStats::from_entries`,
  `KeylogStats::top_sfbs`, `KeylogStats::sfb_frequency_by_finger`.

Machine integers (`u32`, `usize`) are modelled as `Nat`: none of the analysed
code can overflow on the values involved (counts only increase by 1 per log
line, coordinates are tiny).  Rust `HashMap`/`HashSet` are modelled as
association lists / duplicate-free lists in insertion order (the Rust
iteration order is arbitrary; every property proved below is independent of
that order).  `BTreeMap` is modelled as an association list kept sorted by
the embedded comparison function.  Rust panics (`expect`, out-of-bounds `Vec`
indexing, explicit `panic!`) are modelled by the `fatal` outcome, `eyre`
errors (the `?` / `Result` channel) by the `recoverable` outcome.
-/

namespace LayoutGen

/-- Embedding of `Finger` from `src/parse/render_opts.rs` (declaration order carries the
derived `Ord`: `Pinky < Ring < Middle < Index < Thumb`). -/
inductive Finger
  | pinky
  | ring
  | middle
  | index
  | thumb
deriving DecidableEq, Repr, Ord, Fintype

/-- Embedding of `MatrixHalf` from `src/parse/render_opts.rs` (`Left < Right`). -/
inductive MatrixHalf
  | left
  | right
deriving DecidableEq, Repr, Ord, Fintype

/-- Embedding of `FingerAssignment` from `src/parse/render_opts.rs`. -/
structure FingerAssignment where
  finger : Finger
  half : MatrixHalf
deriving DecidableEq, Repr, Fintype

/-- The hand-written `Ord for FingerAssignment`: left hand first
(`Pinky..Thumb` ascending), then right hand with the finger order reversed. -/
def FingerAssignment.cmp (a b : FingerAssignment) : Ordering :=
  match a.half, b.half with
  | .left, .left => compare a.finger b.finger
  | .right, .right => (compare a.finger b.finger).swap
  | _, _ => compare a.half b.half

/-- Embedding of `PhysicalPos` from `src/parse/render_opts.rs`. -/
structure PhysicalPos where
  col : Nat
  row : Nat
  finger : FingerAssignment
  effort : Nat
deriving DecidableEq, Repr

/-- Embedding of `PhysicalPos::pos`. -/
def PhysicalPos.pos (p : PhysicalPos) : Nat × Nat := (p.col, p.row)

/-- Embedding of `PhysicalPos::is_sfb`: different physical position, same finger. -/
def PhysicalPos.is_sfb (p other : PhysicalPos) : Bool :=
  p.pos != other.pos && p.finger == other.finger

/-- Embedding of `Key` from `src/parse/keymap.rs`.  `id` is the wrapped `KeyId` string;
the `x`/`y` fields (f32 render geometry, unused by the analysis engine) are
omitted. -/
structure Key where
  id : String
  physical_pos : PhysicalPos
  matrix_pos : Nat × Nat
deriving DecidableEq, Repr

/-- Embedding of `Key::is_sfb`. -/
def Key.is_sfb (k other : Key) : Bool :=
  k.physical_pos.is_sfb other.physical_pos

/-- Embedding of `Layer` from `src/parse/keymap.rs` (`id` is the wrapped `LayerId`). -/
structure Layer where
  id : String
  keys : List Key
deriving Repr

/-- Embedding of `Layer::find_key_by_matrix`: first key with the given matrix position. -/
def Layer.find_key_by_matrix (l : Layer) (pos : Nat × Nat) : Option Key :=
  l.keys.find? (fun key => key.matrix_pos == pos)

/-- Model of `HashSet::insert`: append the element unless already present.
(The Rust set has arbitrary iteration order; this fixes one order.) -/
def insertNew [BEq α] (x : α) (s : List α) : List α :=
  if s.contains x then s else s ++ [x]

/-- Embedding of `Combo` from `src/parse/keymap.rs`. -/
structure Combo where
  id : String
  output : String
  keys : List Key
deriving DecidableEq, Repr

/-- Embedding of `Combo::contains_physical_pos`. -/
def Combo.contains_physical_pos (c : Combo) (pos : Nat × Nat) : Bool :=
  c.keys.any (fun combo_key => combo_key.physical_pos.pos == pos)

/-- Embedding of `Combo::contains_finger`. -/
def Combo.contains_finger (c : Combo) (finger : FingerAssignment) : Bool :=
  c.keys.any (fun combo_key => combo_key.physical_pos.finger == finger)

/-- Embedding of `Combo::is_key_sfb`: the key's position must not occur in the combo, and
its finger must. -/
def Combo.is_key_sfb (c : Combo) (key : Key) : Bool :=
  if c.contains_physical_pos key.physical_pos.pos then false
  else c.contains_finger key.physical_pos.finger

/-- Embedding of `Combo::get_fingers` (a `HashSet`, modelled as a duplicate-free list). -/
def Combo.get_fingers (c : Combo) : List FingerAssignment :=
  c.keys.foldl (fun s key => insertNew key.physical_pos.finger s) []

/-- Embedding of `Combo::get_positions` (a `HashSet`, modelled as a duplicate-free list). -/
def Combo.get_positions (c : Combo) : List (Nat × Nat) :=
  c.keys.foldl (fun s key => insertNew key.physical_pos.pos s) []

/-- Embedding of `Combo::is_combo_sfb`: position sets disjoint and finger sets
intersecting. -/
def Combo.is_combo_sfb (c combo : Combo) : Bool :=
  if c.get_positions.any (fun p => combo.get_positions.contains p) then false
  else c.get_fingers.any (fun f => combo.get_fingers.contains f)

/-- Embedding of `KeylogEntry` from `src/keylog/stats.rs` (references replaced by
values). -/
inductive KeylogEntry
  | combo (c : Combo)
  | single (key : Key) (keycode : String) (highest_layer : String)
      (pressed : Bool) (tap_count : Nat)
deriving DecidableEq, Repr

/-- Embedding of `KeylogEntry::is_key_sfb`. -/
def KeylogEntry.is_key_sfb : KeylogEntry → Key → Bool
  | .combo c, key => c.is_key_sfb key
  | .single other _ _ _ _, key => key.is_sfb other

/-- Embedding of `KeylogEntry::is_combo_sfb`. -/
def KeylogEntry.is_combo_sfb : KeylogEntry → Combo → Bool
  | .combo my_combo, c => my_combo.is_combo_sfb c
  | .single key _ _ _ _, c => c.is_key_sfb key

/-- Embedding of `KeylogEntry::is_entry_sfb`: dispatch on the first entry of the pair. -/
def KeylogEntry.is_entry_sfb : KeylogEntry → KeylogEntry → Bool
  | .combo c, other => other.is_combo_sfb c
  | .single key _ _ _ _, other => other.is_key_sfb key

/-! ## Claims C1 and C2: the pairwise SFB classification -/

theorem mem_insertNew [BEq α] [LawfulBEq α] (x y : α) (s : List α) :
    x ∈ insertNew y s ↔ x ∈ s ∨ x = y := by
  unfold insertNew
  split
  · rename_i h
    have hy : y ∈ s := by simpa using h
    constructor
    · exact Or.inl
    · rintro (hx | rfl)
      · exact hx
      · exact hy
  · simp

theorem mem_foldl_insertNew [BEq α] [LawfulBEq α] (g : β → α) (l : List β)
    (s : List α) (x : α) :
    x ∈ l.foldl (fun s b => insertNew (g b) s) s ↔ x ∈ s ∨ ∃ b ∈ l, g b = x := by
  induction l generalizing s with
  | nil => simp
  | cons b l ih =>
    rw [List.foldl_cons, ih, mem_insertNew]
    constructor
    · rintro ((hx | rfl) | ⟨b', hb', hg⟩)
      · exact Or.inl hx
      · exact Or.inr ⟨b, by simp, rfl⟩
      · exact Or.inr ⟨b', by simp [hb'], hg⟩
    · rintro (hx | ⟨b', hb', hg⟩)
      · exact Or.inl (Or.inl hx)
      · rcases List.mem_cons.mp hb' with rfl | hb'
        · exact Or.inl (Or.inr hg.symm)
        · exact Or.inr ⟨b', hb', hg⟩

/-- C1. A Single/Single adjacent pair is an SFB iff the two keys sit at
different physical positions and carry the same finger assignment; in
particular equal positions are never an SFB. -/
theorem c1_single_single_sfb (k₁ k₂ : Key) (kc₁ kc₂ hl₁ hl₂ : String)
    (p₁ p₂ : Bool) (t₁ t₂ : Nat) :
    (KeylogEntry.is_entry_sfb (.single k₁ kc₁ hl₁ p₁ t₁) (.single k₂ kc₂ hl₂ p₂ t₂)
        = true
      ↔ k₁.physical_pos.pos ≠ k₂.physical_pos.pos
          ∧ k₁.physical_pos.finger = k₂.physical_pos.finger) := by
  simp [KeylogEntry.is_entry_sfb, KeylogEntry.is_key_sfb, Key.is_sfb,
    PhysicalPos.is_sfb, bne_iff_ne]

/-- Membership form of `Combo.get_positions`: it holds exactly the physical
positions of the combo's keys. -/
theorem mem_get_positions (c : Combo) (p : Nat × Nat) :
    p ∈ c.get_positions ↔ ∃ k ∈ c.keys, k.physical_pos.pos = p := by
  simpa using mem_foldl_insertNew (fun k : Key => k.physical_pos.pos) c.keys [] p

/-- Membership form of `Combo.get_fingers`. -/
theorem mem_get_fingers (c : Combo) (f : FingerAssignment) :
    f ∈ c.get_fingers ↔ ∃ k ∈ c.keys, k.physical_pos.finger = f := by
  simpa using mem_foldl_insertNew (fun k : Key => k.physical_pos.finger) c.keys [] f

/-- Embedding of `Combo.is_combo_sfb`, rephrased through set membership. -/
theorem is_combo_sfb_iff (a b : Combo) :
    a.is_combo_sfb b = true
      ↔ (∀ p ∈ a.get_positions, p ∉ b.get_positions)
        ∧ ∃ f ∈ a.get_fingers, f ∈ b.get_fingers := by
  rw [Combo.is_combo_sfb]
  constructor
  · intro h
    have hint : ¬ (a.get_positions.any fun p => b.get_positions.contains p) = true := by
      intro hc
      rw [if_pos hc] at h
      exact Bool.false_ne_true h
    · rw [if_neg hint] at h
      refine ⟨?_, ?_⟩
      · intro p hp₁ hp₂
        exact hint (List.any_eq_true.mpr ⟨p, hp₁, by simpa using hp₂⟩)
      · rcases List.any_eq_true.mp h with ⟨f, hf₁, hf₂⟩
        exact ⟨f, hf₁, by simpa using hf₂⟩
  · rintro ⟨hdisj, f, hf₁, hf₂⟩
    have hint : ¬ a.get_positions.any (fun p => b.get_positions.contains p) := by
      intro hcontains
      rcases List.any_eq_true.mp hcontains with ⟨p, hp₁, hp₂⟩
      exact hdisj p hp₁ (by simpa using hp₂)
    rw [if_neg hint]
    exact List.any_eq_true.mpr ⟨f, hf₁, by simpa using hf₂⟩

/-- C2. Combo-involving adjacent pairs: in every orientation the pair is an
SFB iff the two sides' position sets are disjoint and their finger sets
intersect, a single key contributing singleton sets. -/
theorem c2_combo_sfb (c c₁ c₂ : Combo) (k : Key) (kc hl : String) (pr : Bool)
    (t : Nat) :
    (KeylogEntry.is_entry_sfb (.single k kc hl pr t) (.combo c) = true
      ↔ (∀ p ∈ c.get_positions, k.physical_pos.pos ≠ p)
          ∧ k.physical_pos.finger ∈ c.get_fingers)
    ∧ (KeylogEntry.is_entry_sfb (.combo c) (.single k kc hl pr t) = true
      ↔ (∀ p ∈ c.get_positions, k.physical_pos.pos ≠ p)
          ∧ k.physical_pos.finger ∈ c.get_fingers)
    ∧ (KeylogEntry.is_entry_sfb (.combo c₁) (.combo c₂) = true
      ↔ (∀ p ∈ c₁.get_positions, p ∉ c₂.get_positions)
          ∧ ∃ f ∈ c₁.get_fingers, f ∈ c₂.get_fingers) := by
  have hkey : ∀ c' : Combo, c'.is_key_sfb k = true
      ↔ (∀ p ∈ c'.get_positions, k.physical_pos.pos ≠ p)
        ∧ k.physical_pos.finger ∈ c'.get_fingers := by
    intro c'
    rw [Combo.is_key_sfb]
    constructor
    · intro h
      by_cases hpos : c'.contains_physical_pos k.physical_pos.pos
      · simp [hpos] at h
      · rw [if_neg hpos] at h
        refine ⟨?_, ?_⟩
        · intro p hp heq
          apply hpos
          rcases (mem_get_positions c' p).mp hp with ⟨key', hkey', hpp⟩
          exact List.any_eq_true.mpr ⟨key', hkey', by simp [hpp, heq]⟩
        · rcases List.any_eq_true.mp h with ⟨key', hkey', hf⟩
          exact (mem_get_fingers c' _).mpr ⟨key', hkey', by simpa using beq_iff_eq.mp hf⟩
    · rintro ⟨hdisj, hfing⟩
      have hpos : ¬ c'.contains_physical_pos k.physical_pos.pos := by
        intro hcontains
        rcases List.any_eq_true.mp hcontains with ⟨key', hkey', hpp⟩
        have : key'.physical_pos.pos ∈ c'.get_positions :=
          (mem_get_positions c' _).mpr ⟨key', hkey', rfl⟩
        exact hdisj _ this (beq_iff_eq.mp hpp).symm
      rw [if_neg (by simpa using hpos)]
      rcases (mem_get_fingers c' _).mp hfing with ⟨key', hkey', hf⟩
      exact List.any_eq_true.mpr ⟨key', hkey', by simp [hf]⟩
  refine ⟨?_, ?_, ?_⟩
  · simpa [KeylogEntry.is_entry_sfb, KeylogEntry.is_key_sfb] using hkey c
  · simpa [KeylogEntry.is_entry_sfb, KeylogEntry.is_combo_sfb] using hkey c
  · show c₂.is_combo_sfb c₁ = true ↔ _
    rw [is_combo_sfb_iff]
    constructor
    · rintro ⟨hdisj, f, hf₂, hf₁⟩
      exact ⟨fun p hp₁ hp₂ => hdisj p hp₂ hp₁, f, hf₁, hf₂⟩
    · rintro ⟨hdisj, f, hf₁, hf₂⟩
      exact ⟨fun p hp₂ hp₁ => hdisj p hp₁ hp₂, f, hf₂, hf₁⟩

/-! ## The event resolver (`convert_keylog_entries` and `Keymap` lookups) -/

/-- Embedding of `Keymap` from `src/parse/keymap.rs`. -/
structure Keymap where
  layers : List Layer
  combos : List Combo
deriving Repr

/-- Embedding of `Keymap::get_layer_id`. -/
def Keymap.get_layer_id (k : Keymap) (i : Nat) : Option String :=
  (k.layers.get? i).map (·.id)

/-- Embedding of `is_fallback_key` from `src/parse/keymap.rs`. -/
def is_fallback_key (id : String) : Bool :=
  id == "_______" || id == "xxxxxxx"

/-- Outcome of `Keymap::find_key_by_matrix`.  `idxOut` models the Rust
panic raised by the unchecked `self.layers[curr_layer]` indexing when
`curr_layer` is out of range. -/
inductive FindKeyResult
  | found (key : Key)
  | noKey
  | idxOut
deriving DecidableEq, Repr

/-- The `if let Some(key) = layer.find_key_by_matrix(pos)` block of the
`find_key_by_matrix` loop: the key this layer contributes, unless it is a
transparent placeholder. -/
def Layer.concrete_key (layer : Layer) (pos : Nat × Nat) : Option Key :=
  match layer.find_key_by_matrix pos with
  | some key => if !is_fallback_key key.id then some key else none
  | none => none

/-- The loop of `Keymap::find_key_by_matrix`, recursing on the current layer
index: index the layer (panicking when out of range), return its concrete
key if any, otherwise fall through to the next lower layer; at layer 0, give
up. -/
def Keymap.find_key_from (k : Keymap) (pos : Nat × Nat) : Nat → FindKeyResult
  | 0 =>
    match k.layers.get? 0 with
    | none => .idxOut
    | some layer =>
      match layer.concrete_key pos with
      | some key => .found key
      | none => .noKey
  | curr + 1 =>
    match k.layers.get? (curr + 1) with
    | none => .idxOut
    | some layer =>
      match layer.concrete_key pos with
      | some key => .found key
      | none => k.find_key_from pos curr

/-- Embedding of `Keymap::find_key_by_matrix`: start the downward scan at
`highest_layer`. -/
def Keymap.find_key_by_matrix (k : Keymap) (highest_layer : Nat)
    (pos : Nat × Nat) : FindKeyResult :=
  k.find_key_from pos highest_layer

/-- Embedding of `InputInfo` from `src/parse/input_info.rs` (the `render_opts` field,
SVG-rendering configuration unused by the analysis engine, is omitted). -/
structure InputInfo where
  keymap : Keymap
deriving Repr

/-- Embedding of `RawKeylogEntry` from `src/keylog/csv_parser.rs`. -/
structure RawKeylogEntry where
  keycode : String
  row : String
  col : String
  highest_layer : Nat
  pressed : Nat
  mods : String
  oneshot_mods : String
  tap_count : Nat
deriving DecidableEq, Repr

/-- Model of Rust's `str::parse::<usize>`: an optional leading `+`, then one
or more decimal digits.  (Overflow cannot occur on the coordinate values the
analysed code parses, so `Nat` is used directly.) -/
def parse_usize (s : String) : Option Nat :=
  let ds := match s.data with
    | '+' :: rest => rest
    | l => l
  if ds.isEmpty then none
  else if ds.all Char.isDigit then
    some (ds.foldl (fun n c => n * 10 + (c.toNat - '0'.toNat)) 0)
  else none

/-- Per-record outcome inside `convert_keylog_entries`:
`skip` models `continue`, `emit` a `res.push`, `recoverable` an error
returned through the `Result` channel (`?` / `ok_or_eyre`), and `fatal` a
process abort (`expect` / `panic!` / out-of-bounds indexing). -/
inductive StepResult
  | skip
  | emit (e : KeylogEntry)
  | recoverable (msg : String)
  | fatal (msg : String)
deriving DecidableEq, Repr

/-- The body of the `for entry in entries` loop of `convert_keylog_entries`
(`src/keylog/stats.rs`). -/
def process_entry (info : InputInfo) (entry : RawKeylogEntry) : StepResult :=
  if entry.keycode == "COMBO" then
    match info.keymap.combos.get? entry.tap_count with
    | some combo => .emit (.combo combo)
    | none => .fatal "Combo index out of bounds"
  else if entry.pressed == 0 then .skip
  else
    match parse_usize entry.row with
    | none => .recoverable "invalid digit found in row"
    | some row =>
      match parse_usize entry.col with
      | none => .recoverable "invalid digit found in col"
      | some col =>
        if row == 254 && col == 254 then .skip
        else
          match info.keymap.find_key_by_matrix entry.highest_layer (row, col) with
          | .idxOut => .fatal "index out of bounds"
          | .noKey => .fatal "Could not find key for position"
          | .found key =>
            match info.keymap.get_layer_id entry.highest_layer with
            | none => .recoverable "Layer out of bounds"
            | some highest_layer =>
              .emit (.single key entry.keycode highest_layer true entry.tap_count)

/-- Result of a whole run: `Ok`, an `eyre` error, or a panic. -/
inductive RunResult (α : Type)
  | ok (val : α)
  | recoverable (msg : String)
  | fatal (msg : String)
deriving DecidableEq, Repr

/-- Embedding of `convert_keylog_entries` from `src/keylog/stats.rs`: process the raw
records in order, accumulating the surviving logical events. -/
def convert_keylog_entries (info : InputInfo) :
    List RawKeylogEntry → RunResult (List KeylogEntry)
  | [] => .ok []
  | e :: rest =>
    match process_entry info e with
    | .skip => convert_keylog_entries info rest
    | .recoverable m => .recoverable m
    | .fatal m => .fatal m
    | .emit ev =>
      match convert_keylog_entries info rest with
      | .ok evs => .ok (ev :: evs)
      | .recoverable m => .recoverable m
      | .fatal m => .fatal m

/-! ### Concrete fixtures (a miniature keymap and log records), used by the
witnesses and counterexamples below -/

def kA : Key :=
  { id := "SE_A"
    physical_pos := { col := 0, row := 0, finger := ⟨.ring, .left⟩, effort := 1 }
    matrix_pos := (0, 0) }

def kB : Key :=
  { id := "SE_B"
    physical_pos := { col := 1, row := 0, finger := ⟨.ring, .left⟩, effort := 2 }
    matrix_pos := (0, 1) }

def kC : Key :=
  { id := "SE_C"
    physical_pos := { col := 2, row := 0, finger := ⟨.index, .left⟩, effort := 0 }
    matrix_pos := (0, 2) }

def testLayer : Layer := { id := "_BASE", keys := [kA, kB, kC] }

def testCombo : Combo := { id := "ab", output := "AB", keys := [kA, kB] }

def testInfo : InputInfo := ⟨⟨[testLayer], [testCombo]⟩⟩

/-- A pressed key at matrix position (0,0) (resolves to `kA`). -/
def rA : RawKeylogEntry := ⟨"0x01", "0", "0", 0, 1, "0x00", "0x00", 0⟩

/-- A pressed key at matrix position (0,1) (resolves to `kB`). -/
def rB : RawKeylogEntry := ⟨"0x01", "0", "1", 0, 1, "0x00", "0x00", 0⟩

/-- A release record for matrix position (0,0). -/
def rRelease : RawKeylogEntry := ⟨"0x01", "0", "0", 0, 0, "0x00", "0x00", 0⟩

/-- A combo activation record (combo index 0, `pressed` field 0). -/
def rCombo : RawKeylogEntry := ⟨"COMBO", "NA", "NA", 0, 0, "0x00", "0x00", 0⟩

/-- A combo record whose combo index 9 is out of range for `testInfo`. -/
def rComboOOB : RawKeylogEntry := ⟨"COMBO", "NA", "NA", 0, 0, "0x00", "0x00", 9⟩

/-- A pressed non-combo record with the `"NA"` sentinel coordinates. -/
def rNA : RawKeylogEntry := ⟨"0x01", "NA", "NA", 0, 1, "0x00", "0x00", 0⟩

/-- A pressed non-combo record with the `254,254` sentinel coordinates. -/
def rSentinel : RawKeylogEntry := ⟨"0x01", "254", "254", 0, 1, "0x00", "0x00", 0⟩

/-- A pressed non-combo record whose `highest_layer` (5) is out of range for
the single-layer `testInfo`. -/
def rBadLayer : RawKeylogEntry := ⟨"0x01", "0", "0", 5, 1, "0x00", "0x00", 0⟩

/-! ## Claim C3: release skipping vs combo emission -/

/-- C3 counterexample.  A raw record with keycode `"COMBO"` is *not* always
emitted as a Combo event: with an out-of-range combo index the run aborts
(the Rust `expect` panics) and no event is emitted at all. -/
theorem c3_combo_oob_counterexample :
    rComboOOB.keycode = "COMBO"
      ∧ convert_keylog_entries testInfo [rComboOOB]
          = .fatal "Combo index out of bounds" := by
  constructor
  · rfl
  · rfl

/-- C3 (amended).  The resolver drops every non-combo record with
`pressed == 0` without emitting an event; a record with keycode `"COMBO"`
whose combo index is in range is emitted as a Combo event regardless of its
`pressed` field; a `"COMBO"` record with an out-of-range index aborts the
run. -/
theorem c3_release_skip_combo_emit (info : InputInfo) (e : RawKeylogEntry)
    (rest : List RawKeylogEntry) :
    (e.keycode ≠ "COMBO" → e.pressed = 0 →
      convert_keylog_entries info (e :: rest) = convert_keylog_entries info rest)
    ∧ (∀ c, e.keycode = "COMBO" → info.keymap.combos.get? e.tap_count = some c →
        convert_keylog_entries info (e :: rest)
          = match convert_keylog_entries info rest with
            | .ok evs => .ok (.combo c :: evs)
            | .recoverable m => .recoverable m
            | .fatal m => .fatal m)
    ∧ (e.keycode = "COMBO" → info.keymap.combos.get? e.tap_count = none →
        convert_keylog_entries info (e :: rest) = .fatal "Combo index out of bounds") := by
  refine ⟨?_, ?_, ?_⟩
  · intro h1 h2
    have hstep : process_entry info e = .skip := by
      simp [process_entry, h1, h2]
    simp [convert_keylog_entries, hstep]
  · intro c h1 h2
    have h2' : info.keymap.combos[e.tap_count]? = some c := by
      rw [← List.get?_eq_getElem?]; exact h2
    have hstep : process_entry info e = .emit (.combo c) := by
      simp [process_entry, h1, h2']
    simp [convert_keylog_entries, hstep]
  · intro h1 h2
    have h2' : info.keymap.combos[e.tap_count]? = none := by
      rw [← List.get?_eq_getElem?]; exact h2
    have hstep : process_entry info e = .fatal "Combo index out of bounds" := by
      simp [process_entry, h1, h2']
    simp [convert_keylog_entries, hstep]

/-- C3 witness: the amended behaviour at concrete records (a skipped release
and an emitted combo with `pressed == 0`). -/
theorem c3_witness :
    (rRelease.keycode ≠ "COMBO" ∧ rRelease.pressed = 0
      ∧ convert_keylog_entries testInfo [rRelease, rA]
          = convert_keylog_entries testInfo [rA])
    ∧ (rCombo.keycode = "COMBO" ∧ testInfo.keymap.combos.get? rCombo.tap_count = some testCombo
      ∧ rCombo.pressed = 0
      ∧ convert_keylog_entries testInfo [rCombo]
          = match convert_keylog_entries testInfo [] with
            | .ok evs => .ok (.combo testCombo :: evs)
            | .recoverable m => .recoverable m
            | .fatal m => .fatal m) :=
  ⟨⟨by decide, rfl,
      (c3_release_skip_combo_emit testInfo rRelease [rA]).1 (by decide) rfl⟩,
    ⟨rfl, rfl, rfl,
      (c3_release_skip_combo_emit testInfo rCombo []).2.1 testCombo rfl rfl⟩⟩

/-! ## Claim C4: sentinel-coordinate records -/

/-- C4 counterexample.  A pressed non-combo record with the sentinel
`row == "NA"` is *not* skipped silently: `row.parse::<usize>()` fails and the
error propagates through the `?` channel, so the run reports an error. -/
theorem c4_na_counterexample :
    rNA.row = "NA" ∧ rNA.keycode ≠ "COMBO" ∧ rNA.pressed ≠ 0
      ∧ convert_keylog_entries testInfo [rNA]
          = .recoverable "invalid digit found in row" := by
  refine ⟨rfl, by decide, by decide, rfl⟩

/-- C4 (amended).  Sentinel handling of the resolver: a pressed non-combo
record with numeric coordinates `254,254` is skipped without error; a
non-combo record with `row == "NA"` is skipped only when it is a release
(caught by the `pressed == 0` filter), while a *pressed* one makes the run
fail with a recoverable parse error. -/
theorem c4_sentinel_skip (info : InputInfo) (e : RawKeylogEntry)
    (rest : List RawKeylogEntry) :
    (e.keycode ≠ "COMBO" → e.pressed ≠ 0 →
      parse_usize e.row = some 254 → parse_usize e.col = some 254 →
      convert_keylog_entries info (e :: rest) = convert_keylog_entries info rest)
    ∧ (e.keycode ≠ "COMBO" → e.pressed = 0 →
      convert_keylog_entries info (e :: rest) = convert_keylog_entries info rest)
    ∧ (e.keycode ≠ "COMBO" → e.pressed ≠ 0 → e.row = "NA" →
      convert_keylog_entries info (e :: rest)
        = .recoverable "invalid digit found in row") := by
  refine ⟨?_, ?_, ?_⟩
  · intro h1 h2 h3 h4
    have hstep : process_entry info e = .skip := by
      simp [process_entry, h1, h2, h3, h4]
    simp [convert_keylog_entries, hstep]
  · intro h1 h2
    have hstep : process_entry info e = .skip := by
      simp [process_entry, h1, h2]
    simp [convert_keylog_entries, hstep]
  · intro h1 h2 h3
    have hna : parse_usize e.row = none := by rw [h3]; rfl
    have hstep : process_entry info e = .recoverable "invalid digit found in row" := by
      simp [process_entry, h1, h2, hna]
    simp [convert_keylog_entries, hstep]

/-- C4 witness: the `254,254` sentinel record is skipped at a concrete
input. -/
theorem c4_witness :
    rSentinel.keycode ≠ "COMBO" ∧ rSentinel.pressed ≠ 0
      ∧ parse_usize rSentinel.row = some 254 ∧ parse_usize rSentinel.col = some 254
      ∧ convert_keylog_entries testInfo [rSentinel, rA]
          = convert_keylog_entries testInfo [rA] :=
  ⟨by decide, by decide, rfl, rfl,
    (c4_sentinel_skip testInfo rSentinel [rA]).1 (by decide) (by decide) rfl rfl⟩

/-! ## Claim C5: out-of-range `highest_layer` -/

/-- C5.  A pressed non-combo record with well-formed non-sentinel
coordinates whose `highest_layer` is out of range does **not** reach the
recoverable `get_layer_id` error: `find_key_by_matrix` is called first and
its unchecked `self.layers[curr_layer]` indexing panics, aborting the
process.  (The `"Layer out of bounds"` error path in
`convert_keylog_entries` is unreachable for this input.) -/
theorem c5_layer_oob_is_fatal :
    rBadLayer.keycode ≠ "COMBO" ∧ rBadLayer.pressed ≠ 0
      ∧ rBadLayer.highest_layer = 5 ∧ testInfo.keymap.layers.length = 1
      ∧ convert_keylog_entries testInfo [rBadLayer] = .fatal "index out of bounds" := by
  refine ⟨by decide, by decide, rfl, rfl, rfl⟩

/-! ## Claim C6: the downward layer scan -/

/-- The concrete (non-placeholder) key that layer `i` contributes at a
matrix position, if any. -/
def concrete_key_at (k : Keymap) (pos : Nat × Nat) (i : Nat) : Option Key :=
  match k.layers.get? i with
  | none => none
  | some layer => layer.concrete_key pos

theorem concrete_key_at_none (k : Keymap) (pos : Nat × Nat) (i : Nat)
    (h : k.layers.get? i = none) : concrete_key_at k pos i = none := by
  simp only [concrete_key_at, h]

theorem concrete_key_at_eq (k : Keymap) (pos : Nat × Nat) (i : Nat)
    (layer : Layer) (h : k.layers.get? i = some layer) :
    concrete_key_at k pos i = layer.concrete_key pos := by
  simp only [concrete_key_at, h]

theorem find_key_from_idxOut (k : Keymap) (pos : Nat × Nat) (curr : Nat)
    (h : k.layers.get? curr = none) : k.find_key_from pos curr = .idxOut := by
  cases curr with
  | zero => simp only [Keymap.find_key_from, h]
  | succ c => simp only [Keymap.find_key_from, h]

theorem find_key_from_found (k : Keymap) (pos : Nat × Nat) (curr : Nat)
    (layer : Layer) (key : Key) (h : k.layers.get? curr = some layer)
    (hc : layer.concrete_key pos = some key) :
    k.find_key_from pos curr = .found key := by
  cases curr with
  | zero => simp only [Keymap.find_key_from, h, hc]
  | succ c => simp only [Keymap.find_key_from, h, hc]

theorem find_key_from_zero_fallthrough (k : Keymap) (pos : Nat × Nat)
    (layer : Layer) (h : k.layers.get? 0 = some layer)
    (hc : layer.concrete_key pos = none) :
    k.find_key_from pos 0 = .noKey := by
  simp only [Keymap.find_key_from, h, hc]

theorem find_key_from_succ_fallthrough (k : Keymap) (pos : Nat × Nat) (c : Nat)
    (layer : Layer) (h : k.layers.get? (c + 1) = some layer)
    (hc : layer.concrete_key pos = none) :
    k.find_key_from pos (c + 1) = k.find_key_from pos c := by
  simp only [Keymap.find_key_from, h, hc]

theorem find_key_from_spec (k : Keymap) (pos : Nat × Nat) :
    ∀ hl, hl < k.layers.length →
      (∀ key, k.find_key_from pos hl = .found key ↔
        ∃ i, i ≤ hl ∧ concrete_key_at k pos i = some key
          ∧ ∀ j, i < j → j ≤ hl → concrete_key_at k pos j = none)
      ∧ (k.find_key_from pos hl = .noKey ↔
          ∀ i, i ≤ hl → concrete_key_at k pos i = none) := by
  intro hl
  induction hl with
  | zero =>
    intro h
    obtain ⟨layer, hlayer⟩ : ∃ layer, k.layers.get? 0 = some layer :=
      ⟨k.layers.get ⟨0, h⟩, List.get?_eq_get h⟩
    have hck := concrete_key_at_eq k pos 0 layer hlayer
    cases hconc : layer.concrete_key pos with
    | none =>
      have hfk := find_key_from_zero_fallthrough k pos layer hlayer hconc
      have hcknone : concrete_key_at k pos 0 = none := by rw [hck, hconc]
      constructor
      · intro key
        rw [hfk]
        constructor
        · intro hcontra; cases hcontra
        · rintro ⟨i, hi, hconcl, -⟩
          have hi0 : i = 0 := Nat.le_zero.mp hi
          subst hi0
          rw [hcknone] at hconcl
          cases hconcl
      · rw [hfk]
        constructor
        · intro _ i hi
          have hi0 : i = 0 := Nat.le_zero.mp hi
          subst hi0
          exact hcknone
        · intro _; rfl
    | some key' =>
      have hfk := find_key_from_found k pos 0 layer key' hlayer hconc
      have hcksome : concrete_key_at k pos 0 = some key' := by rw [hck, hconc]
      constructor
      · intro key
        rw [hfk]
        constructor
        · rintro ⟨rfl⟩
          exact ⟨0, le_refl 0, hcksome,
            fun j hj hj' => absurd (lt_of_lt_of_le hj hj') (lt_irrefl 0)⟩
        · rintro ⟨i, hi, hconcl, -⟩
          have hi0 : i = 0 := Nat.le_zero.mp hi
          subst hi0
          rw [hcksome] at hconcl
          cases hconcl
          rfl
      · rw [hfk]
        constructor
        · intro hcontra; cases hcontra
        · intro hall
          have h0 := hall 0 (le_refl 0)
          rw [hcksome] at h0
          cases h0
  | succ c ih =>
    intro h
    have hc : c < k.layers.length := Nat.lt_of_succ_lt h
    obtain ⟨layer, hlayer⟩ : ∃ layer, k.layers.get? (c + 1) = some layer :=
      ⟨k.layers.get ⟨c + 1, h⟩, List.get?_eq_get h⟩
    have hck := concrete_key_at_eq k pos (c + 1) layer hlayer
    cases hconc : layer.concrete_key pos with
    | none =>
      have hnone : concrete_key_at k pos (c + 1) = none := by rw [hck, hconc]
      have hstep := find_key_from_succ_fallthrough k pos c layer hlayer hconc
      constructor
      · intro key
        rw [hstep, (ih hc).1 key]
        constructor
        · rintro ⟨i, hi, hconcl, habove⟩
          refine ⟨i, le_trans hi (Nat.le_succ c), hconcl, ?_⟩
          intro j hj hj'
          rcases Nat.eq_or_lt_of_le hj' with rfl | hjlt
          · exact hnone
          · exact habove j hj (Nat.lt_succ_iff.mp hjlt)
        · rintro ⟨i, hi, hconcl, habove⟩
          rcases Nat.eq_or_lt_of_le hi with rfl | hilt
          · rw [hnone] at hconcl; cases hconcl
          · exact ⟨i, Nat.lt_succ_iff.mp hilt, hconcl,
              fun j hj hj' => habove j hj (le_trans hj' (Nat.le_succ c))⟩
      · rw [hstep, (ih hc).2]
        constructor
        · intro hall i hi
          rcases Nat.eq_or_lt_of_le hi with rfl | hilt
          · exact hnone
          · exact hall i (Nat.lt_succ_iff.mp hilt)
        · intro hall i hi
          exact hall i (le_trans hi (Nat.le_succ c))
    | some key' =>
      have hcksome : concrete_key_at k pos (c + 1) = some key' := by
        rw [hck, hconc]
      have hfound := find_key_from_found k pos (c + 1) layer key' hlayer hconc
      constructor
      · intro key
        rw [hfound]
        constructor
        · rintro ⟨rfl⟩
          exact ⟨c + 1, le_refl _, hcksome,
            fun j hj hj' => absurd (lt_of_lt_of_le hj hj') (lt_irrefl _)⟩
        · rintro ⟨i, hi, hconcl, habove⟩
          rcases Nat.eq_or_lt_of_le hi with rfl | hilt
          · rw [hcksome] at hconcl
            cases hconcl
            rfl
          · have hx := habove (c + 1) hilt (le_refl _)
            rw [hcksome] at hx
            cases hx
      · rw [hfound]
        constructor
        · intro hcontra; cases hcontra
        · intro hall
          have hx := hall (c + 1) (le_refl _)
          rw [hcksome] at hx
          cases hx

/-- C6.  For every in-range `highest_layer`, the resolver's key lookup scans
layers from `highest_layer` downward to layer 0: it returns exactly the
concrete (non-placeholder) key of the highest layer that has one, yields no
key iff no layer contributes a concrete key, and `convert_keylog_entries`
turns that no-key outcome into a fatal abort. -/
theorem c6_layer_fallthrough (k : Keymap) (pos : Nat × Nat) (hl : Nat)
    (h : hl < k.layers.length) :
    (∀ key, k.find_key_by_matrix hl pos = .found key ↔
      ∃ i, i ≤ hl ∧ concrete_key_at k pos i = some key
        ∧ ∀ j, i < j → j ≤ hl → concrete_key_at k pos j = none)
    ∧ (k.find_key_by_matrix hl pos = .noKey ↔
        ∀ i, i ≤ hl → concrete_key_at k pos i = none)
    ∧ (∀ info e row col, info.keymap = k → e.keycode ≠ "COMBO" → e.pressed ≠ 0 →
        parse_usize e.row = some row → parse_usize e.col = some col →
        ¬(row = 254 ∧ col = 254) → e.highest_layer = hl → (row, col) = pos →
        k.find_key_by_matrix hl pos = .noKey →
        process_entry info e = .fatal "Could not find key for position") := by
  refine ⟨(find_key_from_spec k pos hl h).1, (find_key_from_spec k pos hl h).2, ?_⟩
  rintro info e row col rfl h1 h2 h3 h4 h5 h6 h7 h8
  have hsent : ¬(row == 254 && col == 254) = true := by
    intro hb
    rcases Bool.and_eq_true_iff.mp hb with ⟨hr, hc⟩
    exact h5 ⟨beq_iff_eq.mp hr, beq_iff_eq.mp hc⟩
  rw [process_entry, if_neg (by simp [h1]), if_neg (by simp [h2]), h3, h4]
  simp only [if_neg hsent]
  rw [h6, h7, h8]

/-- C6 witness: on the concrete one-layer keymap the characterization holds
with layer index 0, and a concrete no-key position (5,5) is checked. -/
theorem c6_witness :
    0 < testInfo.keymap.layers.length
      ∧ (testInfo.keymap.find_key_by_matrix 0 (5, 5) = .noKey ↔
          ∀ i, i ≤ 0 → concrete_key_at testInfo.keymap (5, 5) i = none) :=
  ⟨by decide, (c6_layer_fallthrough testInfo.keymap (5, 5) 0 (by decide)).2.1⟩

/-! ## The SFB detector and statistics aggregator (`src/keylog/stats.rs`) -/

/-- Embedding of `Sfb` from `src/keylog/stats.rs`.  The `fingers` of the `Combo` variant
is a `HashSet`, modelled as a duplicate-free list. -/
inductive Sfb
  | combo (first_keys second_keys : List Key) (fingers : List FingerAssignment)
  | single (first_key second_key : Key) (finger : FingerAssignment)
deriving DecidableEq, Repr

/-- Embedding of `Sfb::has_combo`. -/
def Sfb.has_combo : Sfb → Bool
  | .combo _ _ _ => true
  | .single _ _ _ => false

/-- Embedding of `Sfb::first_ids_to_string`: the first side's key ids joined by `,`. -/
def Sfb.first_ids_to_string : Sfb → String
  | .combo first_keys _ _ => String.intercalate "," (first_keys.map (·.id))
  | .single first_key _ _ => first_key.id

/-- Embedding of `Sfb::second_ids_to_string`. -/
def Sfb.second_ids_to_string : Sfb → String
  | .combo _ second_keys _ => String.intercalate "," (second_keys.map (·.id))
  | .single _ second_key _ => second_key.id

/-- Rust's `{:>w}` format directive on strings: pad on the left with spaces
to a minimum width of `w` characters. -/
def pad_left (w : Nat) (s : String) : String :=
  String.mk (List.replicate (w - s.length) ' ') ++ s

/-- Rust's `{:<w}` format directive on strings: pad on the right with spaces
to a minimum width of `w` characters. -/
def pad_right (w : Nat) (s : String) : String :=
  s ++ String.mk (List.replicate (w - s.length) ' ')

/-- Embedding of `Sfb::id`: `format!("{:>22}    {:<20}", first, second)`, the
dedup/aggregation identity string. -/
def Sfb.id (s : Sfb) : String :=
  pad_left 22 s.first_ids_to_string ++ "    " ++ pad_right 20 s.second_ids_to_string

/-- Embedding of `Sfb::get_fingers`. -/
def Sfb.get_fingers : Sfb → List FingerAssignment
  | .combo _ _ fingers => fingers
  | .single _ _ finger => [finger]

/-- Embedding of `Sfb::new_if_sfb`: classify an adjacent pair, building the `Sfb` value
on success (for combo-involving pairs, `fingers` is the union of both sides'
finger sets). -/
def Sfb.new_if_sfb (current next : KeylogEntry) : Option Sfb :=
  if !current.is_entry_sfb next then none
  else some (match current, next with
    | .combo current_combo, .combo next_combo =>
      .combo current_combo.keys next_combo.keys
        (next_combo.get_fingers.foldl (fun s f => insertNew f s)
          current_combo.get_fingers)
    | .combo c, .single key _ _ _ _ =>
      .combo c.keys [key] (insertNew key.physical_pos.finger c.get_fingers)
    | .single key _ _ _ _, .combo c =>
      .combo [key] c.keys (insertNew key.physical_pos.finger c.get_fingers)
    | .single current_key _ _ _ _, .single next_key _ _ _ _ =>
      .single current_key next_key current_key.physical_pos.finger)

/-- Embedding of `SfbStats` from `src/keylog/stats.rs` (ordered by `presses` only). -/
structure SfbStats where
  presses : Nat
  sfb : Sfb
deriving DecidableEq, Repr

/-- The ordering `impl Ord for SfbStats` induces (ascending `presses`). -/
def sfb_le (a b : SfbStats) : Prop := a.presses ≤ b.presses

instance : DecidableRel sfb_le := fun a b => Nat.decLe a.presses b.presses

instance : IsTotal SfbStats sfb_le := ⟨fun a b => Nat.le_total a.presses b.presses⟩

instance : IsTrans SfbStats sfb_le := ⟨fun _ _ _ h₁ h₂ => Nat.le_trans h₁ h₂⟩

/-- Model of `HashMap`'s `entry(k).and_modify(f).or_insert(init)`: modify
the first entry with key `k`, or append a fresh `(k, init)` entry. -/
def hm_insert_with [BEq α] (k : α) (f : β → β) (init : β) :
    List (α × β) → List (α × β)
  | [] => [(k, init)]
  | (k', v) :: rest =>
    if k == k' then (k', f v) :: rest
    else (k', v) :: hm_insert_with k f init rest

/-- Association-list lookup (`HashMap::get` / `BTreeMap::get`). -/
def assoc_get [BEq α] (m : List (α × β)) (k : α) : Option β :=
  (m.find? (fun p => p.1 == k)).map (·.2)

/-- Model of `BTreeMap`'s `entry(k).and_modify(f).or_insert(init)` for
`FingerAssignment` keys: the association list is kept sorted by
`FingerAssignment.cmp`. -/
def bt_insert_with (k : FingerAssignment) (f : β → β) (init : β) :
    List (FingerAssignment × β) → List (FingerAssignment × β)
  | [] => [(k, init)]
  | (k', v) :: rest =>
    match FingerAssignment.cmp k k' with
    | .lt => (k, init) :: (k', v) :: rest
    | .eq => (k', f v) :: rest
    | .gt => (k', v) :: bt_insert_with k f init rest

/-- Embedding of `KeylogStats` from `src/keylog/stats.rs`.  `HashMap` fields are
association lists in insertion order, `BTreeMap` fields association lists
sorted by `FingerAssignment.cmp`. -/
structure KeylogStats where
  output_frequency : List (String × Nat)
  finger_frequency : List (FingerAssignment × Nat)
  total_events : Nat
  total_key_presses : Nat
  total_key_presses_left : Nat
  total_key_presses_right : Nat
  total_sfb_events : Nat
  sfbs : List SfbStats
  sfbs_by_finger : List (FingerAssignment × List (String × SfbStats))
  sfbs_by_id : List (String × SfbStats)
deriving Repr

/-- The `output_frequency` loop of `from_entries`: one count per event,
keyed by the combo output or the single key id. -/
def build_output_frequency (entries : List KeylogEntry) : List (String × Nat) :=
  entries.foldl
    (fun m e => match e with
      | .combo c => hm_insert_with c.output (· + 1) 1 m
      | .single key _ _ _ _ => hm_insert_with key.id (· + 1) 1 m)
    []

/-- The `finger_frequency` loop of `from_entries`: one count per constituent
key, keyed by the key's finger. -/
def build_finger_frequency (entries : List KeylogEntry) :
    List (FingerAssignment × Nat) :=
  entries.foldl
    (fun m e => match e with
      | .combo c =>
        c.keys.foldl
          (fun m key => bt_insert_with key.physical_pos.finger (· + 1) 1 m) m
      | .single key _ _ _ _ =>
        bt_insert_with key.physical_pos.finger (· + 1) 1 m)
    []

/-- The `sfb_series` of `from_entries`: classify every adjacent pair. -/
def sfb_series (entries : List KeylogEntry) : List Sfb :=
  (entries.zip entries.tail).filterMap (fun p => Sfb.new_if_sfb p.1 p.2)

/-- The `sfbs_by_id` loop of `from_entries`: count occurrences per identity
string, keeping the first occurrence's `Sfb` as representative. -/
def build_sfbs_by_id (series : List Sfb) : List (String × SfbStats) :=
  series.foldl
    (fun m sfb =>
      hm_insert_with (Sfb.id sfb)
        (fun st => { st with presses := st.presses + 1 }) ⟨1, sfb⟩ m)
    []

/-- The inner loop of the `sfbs_by_finger` construction: credit one
identity's stats to every finger its `Sfb` touches. -/
def add_sfb_fingers (st : SfbStats)
    (m : List (FingerAssignment × List (String × SfbStats))) :
    List (FingerAssignment × List (String × SfbStats)) :=
  st.sfb.get_fingers.foldl
    (fun m finger =>
      bt_insert_with finger
        (fun inner =>
          hm_insert_with (Sfb.id st.sfb)
            (fun x => { x with presses := x.presses + st.presses })
            ⟨st.presses, st.sfb⟩ inner)
        [(Sfb.id st.sfb, ⟨st.presses, st.sfb⟩)] m)
    m

/-- The `sfbs_by_finger` loop of `from_entries`. -/
def build_sfbs_by_finger (by_id : List (String × SfbStats)) :
    List (FingerAssignment × List (String × SfbStats)) :=
  by_id.foldl (fun m p => add_sfb_fingers p.2 m) []

/-- The pure tail of `KeylogStats::from_entries`, after
`convert_keylog_entries` has succeeded. -/
def stats_of_entries (entries : List KeylogEntry) : KeylogStats :=
  let frequency := build_output_frequency entries
  let finger_frequency := build_finger_frequency entries
  let total_presses := finger_frequency.foldl (fun acc p => acc + p.2) 0
  let total_left := finger_frequency.foldl
    (fun acc p => match p.1.half with | .left => acc + p.2 | .right => acc) 0
  let total_right := finger_frequency.foldl
    (fun acc p => match p.1.half with | .left => acc | .right => acc + p.2) 0
  let series := sfb_series entries
  let sfbs_by_id := build_sfbs_by_id series
  let sfbs_by_finger := build_sfbs_by_finger sfbs_by_id
  let sfbs := List.insertionSort sfb_le (sfbs_by_id.map (·.2))
  { output_frequency := frequency
    finger_frequency := finger_frequency
    total_events := entries.length
    total_key_presses := total_presses
    total_key_presses_left := total_left
    total_key_presses_right := total_right
    total_sfb_events := series.length
    sfbs := sfbs
    sfbs_by_finger := sfbs_by_finger
    sfbs_by_id := sfbs_by_id }

/-- Embedding of `KeylogStats::from_entries`. -/
def KeylogStats.from_entries (info : InputInfo) (raw_entries : List RawKeylogEntry) :
    RunResult KeylogStats :=
  match convert_keylog_entries info raw_entries with
  | .ok entries => .ok (stats_of_entries entries)
  | .recoverable m => .recoverable m
  | .fatal m => .fatal m

/-- The filter closure shared by `top_sfbs` and `sfb_frequency_by_finger`. -/
def sfb_filter (include_combos : Bool) (x : SfbStats) : Bool :=
  if !include_combos then !x.sfb.has_combo else true

/-- Embedding of `KeylogStats::top_sfbs`: walk the ascending `sfbs` list backwards,
filter, take `count`. -/
def KeylogStats.top_sfbs (s : KeylogStats) (count : Nat) (include_combos : Bool) :
    List SfbStats :=
  (s.sfbs.reverse.filter (sfb_filter include_combos)).take count

/-- Embedding of `KeylogStats::sfb_frequency_by_finger`: per-finger sums of the filtered
per-identity press counts. -/
def KeylogStats.sfb_frequency_by_finger (s : KeylogStats)
    (include_combos : Bool) : List (FingerAssignment × Nat) :=
  s.sfbs_by_finger.map
    (fun p =>
      (p.1, (((p.2.map (·.2)).filter (sfb_filter include_combos)).map
        (·.presses)).sum))

/-! ## Claim C9: press totals -/

/-- The number of constituent keys of a logical event. -/
def event_key_count : KeylogEntry → Nat
  | .combo c => c.keys.length
  | .single _ _ _ _ _ => 1

theorem from_entries_ok {info : InputInfo} {raw : List RawKeylogEntry}
    {stats : KeylogStats} (h : KeylogStats.from_entries info raw = .ok stats) :
    ∃ entries, convert_keylog_entries info raw = .ok entries
      ∧ stats = stats_of_entries entries := by
  rw [KeylogStats.from_entries] at h
  cases hconv : convert_keylog_entries info raw with
  | ok entries =>
    rw [hconv] at h
    cases h
    exact ⟨entries, rfl, rfl⟩
  | recoverable m => rw [hconv] at h; cases h
  | fatal m => rw [hconv] at h; cases h

theorem foldl_add_snd (l : List (α × Nat)) (a : Nat) :
    l.foldl (fun acc p => acc + p.2) a = a + (l.map (·.2)).sum := by
  induction l generalizing a with
  | nil => simp
  | cons p l ih => simp [ih, Nat.add_assoc]

theorem sum_bt_insert_add_one (k : FingerAssignment)
    (m : List (FingerAssignment × Nat)) :
    ((bt_insert_with k (· + 1) 1 m).map (·.2)).sum = (m.map (·.2)).sum + 1 := by
  induction m with
  | nil => simp [bt_insert_with]
  | cons p rest ih =>
    rw [bt_insert_with]
    cases FingerAssignment.cmp k p.1 with
    | lt => simp [Nat.add_comm, Nat.add_assoc, Nat.add_left_comm]
    | eq => simp [Nat.add_comm, Nat.add_assoc, Nat.add_left_comm]
    | gt => simp [ih, Nat.add_assoc]

theorem sum_bt_insert_keys (keys : List Key)
    (m : List (FingerAssignment × Nat)) :
    (((keys.foldl
        (fun m key => bt_insert_with key.physical_pos.finger (· + 1) 1 m) m)).map
      (·.2)).sum = (m.map (·.2)).sum + keys.length := by
  induction keys generalizing m with
  | nil => simp
  | cons key keys ih =>
    rw [List.foldl_cons, ih, sum_bt_insert_add_one, List.length_cons]
    omega

theorem sum_build_finger_frequency (entries : List KeylogEntry)
    (m : List (FingerAssignment × Nat)) :
    ((entries.foldl
        (fun m e => match e with
          | .combo c =>
            c.keys.foldl
              (fun m key => bt_insert_with key.physical_pos.finger (· + 1) 1 m) m
          | .single key _ _ _ _ =>
            bt_insert_with key.physical_pos.finger (· + 1) 1 m)
        m).map (·.2)).sum
      = (m.map (·.2)).sum + (entries.map event_key_count).sum := by
  induction entries generalizing m with
  | nil => simp
  | cons e entries ih =>
    rw [List.foldl_cons, ih]
    cases e with
    | combo c =>
      rw [sum_bt_insert_keys]
      simp [event_key_count, Nat.add_assoc]
    | single key kc hl pr t =>
      rw [sum_bt_insert_add_one]
      simp [event_key_count, Nat.add_assoc]

/-- C9.  `total_key_presses` equals the sum of all `finger_frequency`
values, which equals the sum over all logical events of their
constituent-key count (a combo with `k` keys contributes `k`, a single
event contributes 1). -/
theorem c9_total_key_presses (info : InputInfo) (raw : List RawKeylogEntry)
    (stats : KeylogStats) (h : KeylogStats.from_entries info raw = .ok stats) :
    stats.total_key_presses = (stats.finger_frequency.map (·.2)).sum
      ∧ ∃ entries, convert_keylog_entries info raw = .ok entries
          ∧ stats.total_key_presses = (entries.map event_key_count).sum := by
  rcases from_entries_ok h with ⟨entries, hconv, rfl⟩
  constructor
  · show (build_finger_frequency entries).foldl (fun acc p => acc + p.2) 0
      = ((build_finger_frequency entries).map (·.2)).sum
    rw [foldl_add_snd]
    omega
  · refine ⟨entries, hconv, ?_⟩
    show (build_finger_frequency entries).foldl (fun acc p => acc + p.2) 0 = _
    rw [foldl_add_snd, build_finger_frequency, sum_build_finger_frequency]
    simp

/-- The logical events of the two-record witness log. -/
def testEntries : List KeylogEntry :=
  [.single kA "0x01" "_BASE" true 0, .single kB "0x01" "_BASE" true 0]

/-- The statistics of the witness log. -/
def testStats : KeylogStats := stats_of_entries testEntries

/-- C9 witness: the totals invariant at a concrete processed log. -/
theorem c9_witness :
    KeylogStats.from_entries testInfo [rA, rB] = .ok testStats
      ∧ testStats.total_key_presses = ((testStats.finger_frequency.map (·.2)).sum)
      ∧ ∃ entries, convert_keylog_entries testInfo [rA, rB] = .ok entries
          ∧ testStats.total_key_presses = (entries.map event_key_count).sum :=
  ⟨rfl, (c9_total_key_presses testInfo [rA, rB] testStats rfl).1,
    (c9_total_key_presses testInfo [rA, rB] testStats rfl).2⟩

/-! ## Claim C7: `top_sfbs` -/

/-- C7.  `top_sfbs n include_combos` lists SFB entries in descending-count
order, every entry it drops counts no more than every entry it returns, it
returns `n` entries whenever at least `n` pass the filter (and all of them
otherwise), and with `include_combos = false` no returned entry is a
`Combo`-variant `Sfb`. -/
theorem c7_top_sfbs (info : InputInfo) (raw : List RawKeylogEntry)
    (stats : KeylogStats) (h : KeylogStats.from_entries info raw = .ok stats)
    (n : Nat) (inc : Bool) :
    (stats.top_sfbs n inc).Pairwise (fun a b => b.presses ≤ a.presses)
      ∧ (∀ x ∈ stats.top_sfbs n inc,
          ∀ y ∈ (stats.sfbs.reverse.filter (sfb_filter inc)).drop n,
            y.presses ≤ x.presses)
      ∧ (stats.top_sfbs n inc).length
          = min n ((stats.sfbs.filter (sfb_filter inc)).length)
      ∧ (inc = false → ∀ x ∈ stats.top_sfbs n inc, x.sfb.has_combo = false) := by
  rcases from_entries_ok h with ⟨entries, -, rfl⟩
  have hsorted : (stats_of_entries entries).sfbs.Pairwise sfb_le :=
    List.sorted_insertionSort sfb_le _
  have hrev : (stats_of_entries entries).sfbs.reverse.Pairwise
      (fun a b => sfb_le b a) := List.pairwise_reverse.mpr hsorted
  have hL : ((stats_of_entries entries).sfbs.reverse.filter
      (sfb_filter inc)).Pairwise (fun a b => sfb_le b a) :=
    hrev.filter (sfb_filter inc)
  refine ⟨?_, ?_, ?_, ?_⟩
  · exact List.Pairwise.sublist (List.take_sublist n _) hL
  · intro x hx y hy
    have hsplit := List.take_append_drop n
      ((stats_of_entries entries).sfbs.reverse.filter (sfb_filter inc))
    rw [← hsplit] at hL
    exact (List.pairwise_append.mp hL).2.2 x hx y hy
  · rw [KeylogStats.top_sfbs, List.length_take, List.filter_reverse,
      List.length_reverse]
  · intro hinc x hx
    have hmem := List.mem_of_mem_take hx
    have hfil := (List.mem_filter.mp hmem).2
    rw [hinc] at hfil
    simpa [sfb_filter] using hfil

/-- C7 witness: top list of the concrete log (one SFB identity, combos
excluded). -/
theorem c7_witness :
    KeylogStats.from_entries testInfo [rA, rB] = .ok testStats
      ∧ ((testStats.top_sfbs 1 false).Pairwise (fun a b => b.presses ≤ a.presses)
          ∧ (∀ x ∈ testStats.top_sfbs 1 false,
              ∀ y ∈ (testStats.sfbs.reverse.filter (sfb_filter false)).drop 1,
                y.presses ≤ x.presses)
          ∧ (testStats.top_sfbs 1 false).length
              = min 1 ((testStats.sfbs.filter (sfb_filter false)).length)
          ∧ (false = false →
              ∀ x ∈ testStats.top_sfbs 1 false, x.sfb.has_combo = false)) :=
  ⟨rfl, c7_top_sfbs testInfo [rA, rB] testStats rfl 1 false⟩

/-! ## Claim C8: the SFB-by-finger index

Infrastructure: lookup lemmas for the `HashMap` model (`hm_insert_with`),
the `BTreeMap` model (`bt_insert_with`), and decision-procedure facts about
the hand-written `FingerAssignment` comparison. -/

theorem fa_cmp_eq_iff : ∀ a b : FingerAssignment,
    FingerAssignment.cmp a b = .eq ↔ a = b := by decide

theorem fa_cmp_lt_trans : ∀ a b c : FingerAssignment,
    FingerAssignment.cmp a b = .lt → FingerAssignment.cmp b c = .lt →
    FingerAssignment.cmp a c = .lt := by decide

theorem fa_cmp_lt_ne : ∀ a b : FingerAssignment,
    FingerAssignment.cmp a b = .lt → a ≠ b := by decide

theorem fa_cmp_gt_to_lt : ∀ a b : FingerAssignment,
    FingerAssignment.cmp a b = .gt → FingerAssignment.cmp b a = .lt := by decide

theorem fa_cmp_gt_ne : ∀ a b : FingerAssignment,
    FingerAssignment.cmp a b = .gt → a ≠ b := by decide

/-- Keys strictly ascending in the order `BTreeMap<FingerAssignment, _>`
iterates in. -/
def fa_sorted (m : List (FingerAssignment × β)) : Prop :=
  m.Pairwise (fun p q => FingerAssignment.cmp p.1 q.1 = .lt)

theorem assoc_get_nil [BEq α] (k : α) :
    assoc_get ([] : List (α × β)) k = none := rfl

theorem assoc_get_cons_self [BEq α] [LawfulBEq α] (k : α) (v : β)
    (rest : List (α × β)) : assoc_get ((k, v) :: rest) k = some v := by
  simp [assoc_get]

theorem assoc_get_cons_ne [BEq α] [LawfulBEq α] (k k' : α) (v : β)
    (rest : List (α × β)) (h : k ≠ k') :
    assoc_get ((k, v) :: rest) k' = assoc_get rest k' := by
  have hb : (k == k') = false := by
    rcases hb : k == k' with _ | _
    · rfl
    · exact absurd (eq_of_beq hb) h
  simp [assoc_get, List.find?_cons, hb]

theorem assoc_get_eq_none_of [BEq α] [LawfulBEq α] (m : List (α × β)) (k : α)
    (h : ∀ p ∈ m, p.1 ≠ k) : assoc_get m k = none := by
  rw [assoc_get, List.find?_eq_none.mpr, Option.map_none']
  intro p hp
  have hb : (p.1 == k) = false := by
    rcases hb : p.1 == k with _ | _
    · rfl
    · exact absurd (eq_of_beq hb) (h p hp)
  simp [hb]

theorem bt_insert_keys (k : FingerAssignment) (f : β → β) (init : β)
    (m : List (FingerAssignment × β)) :
    ∀ p ∈ bt_insert_with k f init m, p.1 = k ∨ p.1 ∈ m.map (·.1) := by
  induction m with
  | nil =>
    intro p hp
    rcases List.mem_singleton.mp hp with rfl
    exact Or.inl rfl
  | cons q rest ih =>
    intro p hp
    rw [bt_insert_with] at hp
    rcases q with ⟨k', v⟩
    cases hcmp : FingerAssignment.cmp k k' with
    | lt =>
      rw [hcmp] at hp
      rcases List.mem_cons.mp hp with rfl | hp'
      · exact Or.inl rfl
      · exact Or.inr (List.mem_map.mpr ⟨p, hp', rfl⟩)
    | eq =>
      rw [hcmp] at hp
      rcases List.mem_cons.mp hp with rfl | hp'
      · exact Or.inr (by simp)
      · exact Or.inr (by simp [List.mem_map.mpr ⟨p, hp', rfl⟩])
    | gt =>
      rw [hcmp] at hp
      rcases List.mem_cons.mp hp with rfl | hp'
      · exact Or.inr (by simp)
      · rcases ih p hp' with h | h
        · exact Or.inl h
        · exact Or.inr (by simp [h])

theorem bt_insert_sorted (k : FingerAssignment) (f : β → β) (init : β)
    (m : List (FingerAssignment × β)) (h : fa_sorted m) :
    fa_sorted (bt_insert_with k f init m) := by
  induction m with
  | nil => exact List.pairwise_singleton _ _
  | cons q rest ih =>
    rcases q with ⟨k', v⟩
    rcases List.pairwise_cons.mp h with ⟨hhead, htail⟩
    rw [bt_insert_with]
    cases hcmp : FingerAssignment.cmp k k' with
    | lt =>
      refine List.pairwise_cons.mpr ⟨?_, h⟩
      intro q hq
      rcases List.mem_cons.mp hq with rfl | hq'
      · exact hcmp
      · exact fa_cmp_lt_trans k k' q.1 hcmp (hhead q hq')
    | eq => exact List.pairwise_cons.mpr ⟨hhead, htail⟩
    | gt =>
      refine List.pairwise_cons.mpr ⟨?_, ih htail⟩
      intro q hq
      rcases bt_insert_keys k f init rest q hq with h1 | h1
      · rw [h1]
        exact fa_cmp_gt_to_lt k k' hcmp
      · rcases List.mem_map.mp h1 with ⟨r, hr, hr1⟩
        rw [← hr1]
        exact hhead r hr

theorem bt_insert_get_self (k : FingerAssignment) (f : β → β) (init : β)
    (m : List (FingerAssignment × β)) (h : fa_sorted m) :
    assoc_get (bt_insert_with k f init m) k
      = some ((assoc_get m k).elim init f) := by
  induction m with
  | nil =>
    rw [bt_insert_with, assoc_get_cons_self]
    rfl
  | cons q rest ih =>
    rcases q with ⟨k', v⟩
    rcases List.pairwise_cons.mp h with ⟨hhead, htail⟩
    rw [bt_insert_with]
    cases hcmp : FingerAssignment.cmp k k' with
    | lt =>
      rw [assoc_get_cons_self]
      have hrest : assoc_get ((k', v) :: rest) k = none := by
        apply assoc_get_eq_none_of
        intro p hp
        rcases List.mem_cons.mp hp with rfl | hp'
        · exact (fa_cmp_lt_ne k k' hcmp).symm
        · exact ((fa_cmp_lt_ne k p.1
            (fa_cmp_lt_trans k k' p.1 hcmp (hhead p hp'))).symm)
      rw [hrest]
      rfl
    | eq =>
      have hk : k = k' := (fa_cmp_eq_iff k k').mp hcmp
      subst hk
      rw [assoc_get_cons_self, assoc_get_cons_self]
      rfl
    | gt =>
      have hne : k' ≠ k := (fa_cmp_gt_ne k k' hcmp).symm
      rw [assoc_get_cons_ne k' k v _ hne, assoc_get_cons_ne k' k v rest hne]
      exact ih htail

theorem bt_insert_get_other (k : FingerAssignment) (f : β → β) (init : β)
    (m : List (FingerAssignment × β)) (k'' : FingerAssignment) (hne : k'' ≠ k) :
    assoc_get (bt_insert_with k f init m) k'' = assoc_get m k'' := by
  induction m with
  | nil =>
    rw [bt_insert_with, assoc_get_cons_ne k k'' init [] hne.symm]
  | cons q rest ih =>
    rcases q with ⟨k', v⟩
    rw [bt_insert_with]
    cases hcmp : FingerAssignment.cmp k k' with
    | lt => rw [assoc_get_cons_ne k k'' init _ hne.symm]
    | eq =>
      have hk : k = k' := (fa_cmp_eq_iff k k').mp hcmp
      subst hk
      rw [assoc_get_cons_ne k k'' (f v) rest hne.symm,
        assoc_get_cons_ne k k'' v rest hne.symm]
    | gt =>
      by_cases hk : k' = k''
      · subst hk
        rw [assoc_get_cons_self, assoc_get_cons_self]
      · rw [assoc_get_cons_ne k' k'' v _ hk, assoc_get_cons_ne k' k'' v rest hk]
        exact ih

theorem hm_insert_get_self [BEq α] [LawfulBEq α] (k : α) (f : β → β) (init : β)
    (m : List (α × β)) :
    assoc_get (hm_insert_with k f init m) k
      = some ((assoc_get m k).elim init f) := by
  induction m with
  | nil =>
    rw [hm_insert_with, assoc_get_cons_self]
    rfl
  | cons q rest ih =>
    rcases q with ⟨k', v⟩
    rw [hm_insert_with]
    by_cases hk : k = k'
    · subst hk
      rw [if_pos (by simp), assoc_get_cons_self, assoc_get_cons_self]
      rfl
    · rw [if_neg (by simpa using hk), assoc_get_cons_ne k' k v _ (Ne.symm hk),
        assoc_get_cons_ne k' k v rest (Ne.symm hk)]
      exact ih

theorem hm_insert_get_other [BEq α] [LawfulBEq α] (k : α) (f : β → β) (init : β)
    (m : List (α × β)) (k'' : α) (hne : k'' ≠ k) :
    assoc_get (hm_insert_with k f init m) k'' = assoc_get m k'' := by
  induction m with
  | nil => rw [hm_insert_with, assoc_get_cons_ne k k'' init [] hne.symm]
  | cons q rest ih =>
    rcases q with ⟨k', v⟩
    rw [hm_insert_with]
    by_cases hk : k = k'
    · subst hk
      rw [if_pos (by simp), assoc_get_cons_ne k k'' (f v) rest hne.symm,
        assoc_get_cons_ne k k'' v rest hne.symm]
    · rw [if_neg (by simpa using hk)]
      by_cases hk'' : k' = k''
      · subst hk''
        rw [assoc_get_cons_self, assoc_get_cons_self]
      · rw [assoc_get_cons_ne k' k'' v _ hk'', assoc_get_cons_ne k' k'' v rest hk'']
        exact ih

theorem hm_insert_forall [BEq α] [LawfulBEq α] {P : α × β → Prop} (k : α)
    (f : β → β) (init : β) (m : List (α × β)) (hm : ∀ p ∈ m, P p)
    (hinit : P (k, init)) (hf : ∀ v, P (k, v) → P (k, f v)) :
    ∀ p ∈ hm_insert_with k f init m, P p := by
  induction m with
  | nil =>
    intro p hp
    rcases List.mem_singleton.mp hp with rfl
    exact hinit
  | cons q rest ih =>
    rcases q with ⟨k', v⟩
    intro p hp
    rw [hm_insert_with] at hp
    by_cases hk : k = k'
    · subst hk
      rw [if_pos (by simp)] at hp
      rcases List.mem_cons.mp hp with rfl | hp'
      · exact hf v (hm _ (by simp))
      · exact hm p (by simp [hp'])
    · rw [if_neg (by simpa using hk)] at hp
      rcases List.mem_cons.mp hp with rfl | hp'
      · exact hm _ (by simp)
      · exact ih (fun r hr => hm r (by simp [hr])) p hp'

theorem hm_insert_keys [BEq α] [LawfulBEq α] (k : α) (f : β → β) (init : β)
    (m : List (α × β)) :
    ∀ p ∈ hm_insert_with k f init m, p.1 = k ∨ p.1 ∈ m.map (·.1) := by
  induction m with
  | nil =>
    intro p hp
    rcases List.mem_singleton.mp hp with rfl
    exact Or.inl rfl
  | cons q rest ih =>
    rcases q with ⟨k', v⟩
    intro p hp
    rw [hm_insert_with] at hp
    by_cases hk : k = k'
    · subst hk
      rw [if_pos (by simp)] at hp
      rcases List.mem_cons.mp hp with rfl | hp'
      · exact Or.inr (by simp)
      · exact Or.inr (List.mem_map.mpr ⟨p, by simp [hp'], rfl⟩)
    · rw [if_neg (by simpa using hk)] at hp
      rcases List.mem_cons.mp hp with rfl | hp'
      · exact Or.inr (by simp)
      · rcases ih p hp' with h | h
        · exact Or.inl h
        · exact Or.inr (by simp at h ⊢; tauto)

theorem hm_insert_nodup [BEq α] [LawfulBEq α] (k : α) (f : β → β) (init : β)
    (m : List (α × β)) (h : (m.map (·.1)).Nodup) :
    ((hm_insert_with k f init m).map (·.1)).Nodup := by
  induction m with
  | nil => rw [hm_insert_with]; simp
  | cons q rest ih =>
    rcases q with ⟨k', v⟩
    rw [List.map_cons] at h
    rcases List.nodup_cons.mp h with ⟨hk', htail⟩
    rw [hm_insert_with]
    by_cases hk : k = k'
    · subst hk
      rw [if_pos (by simp), List.map_cons]
      exact List.nodup_cons.mpr ⟨hk', htail⟩
    · rw [if_neg (by simpa using hk), List.map_cons]
      refine List.nodup_cons.mpr ⟨?_, ih htail⟩
      intro hmem
      rcases List.mem_map.mp hmem with ⟨p, hp, hp1⟩
      rcases hm_insert_keys k f init rest p hp with h1 | h1
      · rw [hp1] at h1
        exact hk h1.symm
      · rw [hp1] at h1
        exact hk' h1

theorem insertNew_nodup [BEq α] [LawfulBEq α] (x : α) (s : List α)
    (h : s.Nodup) : (insertNew x s).Nodup := by
  unfold insertNew
  split
  · exact h
  · rename_i hc
    have hx : x ∉ s := by simpa using hc
    simp [List.nodup_append, h, hx]

theorem foldl_insertNew_nodup [BEq α] [LawfulBEq α] (g : β → α) (l : List β)
    (s : List α) (h : s.Nodup) :
    (l.foldl (fun s b => insertNew (g b) s) s).Nodup := by
  induction l generalizing s with
  | nil => exact h
  | cons b l ih => exact ih _ (insertNew_nodup (g b) s h)

theorem combo_get_fingers_nodup (c : Combo) : c.get_fingers.Nodup :=
  foldl_insertNew_nodup (fun key : Key => key.physical_pos.finger) c.keys []
    List.nodup_nil

theorem new_if_sfb_fingers_nodup (a b : KeylogEntry) (sfb : Sfb)
    (h : Sfb.new_if_sfb a b = some sfb) : sfb.get_fingers.Nodup := by
  rw [Sfb.new_if_sfb.eq_def] at h
  by_cases hsfb : (!a.is_entry_sfb b) = true
  · rw [if_pos hsfb] at h
    cases h
  · rw [if_neg hsfb] at h
    cases a with
    | combo c1 =>
      cases b with
      | combo c2 =>
        injection h with h
        subst h
        exact foldl_insertNew_nodup (fun f : FingerAssignment => f)
          c2.get_fingers c1.get_fingers (combo_get_fingers_nodup c1)
      | single key kc hl pr t =>
        injection h with h
        subst h
        exact insertNew_nodup _ _ (combo_get_fingers_nodup c1)
    | single key kc hl pr t =>
      cases b with
      | combo c2 =>
        injection h with h
        subst h
        exact insertNew_nodup _ _ (combo_get_fingers_nodup c2)
      | single key2 kc2 hl2 pr2 t2 =>
        injection h with h
        subst h
        simp [Sfb.get_fingers]

theorem sfb_series_fingers_nodup (entries : List KeylogEntry) :
    ∀ sfb ∈ sfb_series entries, sfb.get_fingers.Nodup := by
  intro sfb hmem
  rw [sfb_series] at hmem
  rcases List.mem_filterMap.mp hmem with ⟨p, _, hnew⟩
  exact new_if_sfb_fingers_nodup p.1 p.2 sfb hnew

/-- Per-entry invariant of `sfbs_by_id`: the stored representative's
identity string matches the key, and its finger set is duplicate-free. -/
def by_id_prop (p : String × SfbStats) : Prop :=
  Sfb.id p.2.sfb = p.1 ∧ p.2.sfb.get_fingers.Nodup

theorem build_sfbs_by_id_forall (series : List Sfb)
    (hser : ∀ sfb ∈ series, sfb.get_fingers.Nodup) :
    ∀ p ∈ build_sfbs_by_id series, by_id_prop p := by
  suffices haux : ∀ (s : List Sfb) (m : List (String × SfbStats)),
      (∀ sfb ∈ s, sfb.get_fingers.Nodup) → (∀ p ∈ m, by_id_prop p) →
      ∀ p ∈ s.foldl
        (fun m sfb =>
          hm_insert_with (Sfb.id sfb)
            (fun st => { st with presses := st.presses + 1 }) ⟨1, sfb⟩ m)
        m, by_id_prop p by
    exact haux series [] hser (by intro p hp; cases hp)
  intro s
  induction s with
  | nil =>
    intro m _ hm p hp
    exact hm p hp
  | cons sfb s ih =>
    intro m hs hm p hp
    rw [List.foldl_cons] at hp
    refine ih _ (fun x hx => hs x (by simp [hx])) ?_ p hp
    exact hm_insert_forall _ _ _ m hm ⟨rfl, hs sfb (by simp)⟩
      (fun v hv => ⟨hv.1, hv.2⟩)

theorem build_sfbs_by_id_nodup (series : List Sfb) :
    ((build_sfbs_by_id series).map (·.1)).Nodup := by
  suffices haux : ∀ (s : List Sfb) (m : List (String × SfbStats)),
      (m.map (·.1)).Nodup →
      ((s.foldl
        (fun m sfb =>
          hm_insert_with (Sfb.id sfb)
            (fun st => { st with presses := st.presses + 1 }) ⟨1, sfb⟩ m)
        m).map (·.1)).Nodup by
    exact haux series [] (by simp)
  intro s
  induction s with
  | nil => intro m hm; exact hm
  | cons sfb s ih =>
    intro m hm
    rw [List.foldl_cons]
    exact ih _ (hm_insert_nodup _ _ _ m hm)

/-- Two-level lookup in the `sfbs_by_finger` index. -/
def sfb_by_finger_get
    (m : List (FingerAssignment × List (String × SfbStats)))
    (finger : FingerAssignment) (id : String) : Option SfbStats :=
  (assoc_get m finger).bind (fun inner => assoc_get inner id)

/-- The `and_modify` closure of the `sfbs_by_finger` construction. -/
def sfb_inner_up (st : SfbStats) (inner : List (String × SfbStats)) :
    List (String × SfbStats) :=
  hm_insert_with (Sfb.id st.sfb)
    (fun x => { x with presses := x.presses + st.presses })
    ⟨st.presses, st.sfb⟩ inner

/-- The `or_insert_with` singleton of the `sfbs_by_finger` construction. -/
def sfb_inner_init (st : SfbStats) : List (String × SfbStats) :=
  [(Sfb.id st.sfb, ⟨st.presses, st.sfb⟩)]

/-- Embedding of `add_sfb_fingers` with the finger list made explicit. -/
def add_sfb_fingers_loop (st : SfbStats) (F : List FingerAssignment)
    (m : List (FingerAssignment × List (String × SfbStats))) :
    List (FingerAssignment × List (String × SfbStats)) :=
  F.foldl
    (fun m finger =>
      bt_insert_with finger (sfb_inner_up st) (sfb_inner_init st) m)
    m

theorem add_sfb_fingers_eq_loop (st : SfbStats)
    (m : List (FingerAssignment × List (String × SfbStats))) :
    add_sfb_fingers st m = add_sfb_fingers_loop st st.sfb.get_fingers m := rfl

theorem add_sfb_fingers_loop_spec (st : SfbStats) :
    ∀ (F : List FingerAssignment)
      (macc : List (FingerAssignment × List (String × SfbStats))),
      F.Nodup → fa_sorted macc →
      (∀ f ∈ F, sfb_by_finger_get macc f (Sfb.id st.sfb) = none) →
      fa_sorted (add_sfb_fingers_loop st F macc)
      ∧ (∀ f ∈ F,
          sfb_by_finger_get (add_sfb_fingers_loop st F macc) f (Sfb.id st.sfb)
            = some st)
      ∧ (∀ f, f ∉ F → ∀ id,
          sfb_by_finger_get (add_sfb_fingers_loop st F macc) f id
            = sfb_by_finger_get macc f id)
      ∧ (∀ f id, id ≠ Sfb.id st.sfb →
          sfb_by_finger_get (add_sfb_fingers_loop st F macc) f id
            = sfb_by_finger_get macc f id) := by
  intro F
  induction F with
  | nil =>
    intro macc _ hsorted _
    refine ⟨hsorted, ?_, ?_, ?_⟩
    · intro f hf
      cases hf
    · intro f _ id
      rfl
    · intro f id _
      rfl
  | cons f0 F ih =>
    intro macc hnodup hsorted hfresh
    rcases List.nodup_cons.mp hnodup with ⟨hf0, hF⟩
    have hloop : add_sfb_fingers_loop st (f0 :: F) macc
        = add_sfb_fingers_loop st F
            (bt_insert_with f0 (sfb_inner_up st) (sfb_inner_init st) macc) := rfl
    have hm1sorted : fa_sorted
        (bt_insert_with f0 (sfb_inner_up st) (sfb_inner_init st) macc) :=
      bt_insert_sorted f0 (sfb_inner_up st) (sfb_inner_init st) macc hsorted
    have hm1self : sfb_by_finger_get
        (bt_insert_with f0 (sfb_inner_up st) (sfb_inner_init st) macc)
        f0 (Sfb.id st.sfb) = some st := by
      have hget := bt_insert_get_self f0 (sfb_inner_up st) (sfb_inner_init st)
        macc hsorted
      cases hin : assoc_get macc f0 with
      | none =>
        rw [hin, Option.elim_none] at hget
        rw [sfb_by_finger_get, hget, Option.some_bind, sfb_inner_init,
          assoc_get_cons_self]
      | some inner =>
        rw [hin, Option.elim_some] at hget
        have hfr : assoc_get inner (Sfb.id st.sfb) = none := by
          have hx := hfresh f0 (by simp)
          rw [sfb_by_finger_get, hin, Option.some_bind] at hx
          exact hx
        rw [sfb_by_finger_get, hget, Option.some_bind, sfb_inner_up,
          hm_insert_get_self, hfr, Option.elim_none]
    have hm1other : ∀ f, f ≠ f0 → ∀ id,
        sfb_by_finger_get
          (bt_insert_with f0 (sfb_inner_up st) (sfb_inner_init st) macc) f id
          = sfb_by_finger_get macc f id := by
      intro f hne id
      rw [sfb_by_finger_get, sfb_by_finger_get,
        bt_insert_get_other f0 (sfb_inner_up st) (sfb_inner_init st) macc f hne]
    have hm1id : ∀ id, id ≠ Sfb.id st.sfb →
        sfb_by_finger_get
          (bt_insert_with f0 (sfb_inner_up st) (sfb_inner_init st) macc) f0 id
          = sfb_by_finger_get macc f0 id := by
      intro id hne
      have hget := bt_insert_get_self f0 (sfb_inner_up st) (sfb_inner_init st)
        macc hsorted
      cases hin : assoc_get macc f0 with
      | none =>
        rw [hin, Option.elim_none] at hget
        rw [sfb_by_finger_get, sfb_by_finger_get, hget, hin, Option.some_bind,
          Option.none_bind, sfb_inner_init,
          assoc_get_cons_ne _ _ _ _ (Ne.symm hne)]
        rfl
      | some inner =>
        rw [hin, Option.elim_some] at hget
        rw [sfb_by_finger_get, sfb_by_finger_get, hget, hin, Option.some_bind,
          Option.some_bind, sfb_inner_up,
          hm_insert_get_other _ _ _ _ _ hne]
    have hfresh' : ∀ f ∈ F, sfb_by_finger_get
        (bt_insert_with f0 (sfb_inner_up st) (sfb_inner_init st) macc) f
        (Sfb.id st.sfb) = none := by
      intro f hf
      have hne : f ≠ f0 := fun heq => hf0 (heq ▸ hf)
      rw [hm1other f hne]
      exact hfresh f (by simp [hf])
    obtain ⟨ihsorted, ihself, ihother, ihid⟩ :=
      ih (bt_insert_with f0 (sfb_inner_up st) (sfb_inner_init st) macc)
        hF hm1sorted hfresh'
    rw [hloop]
    refine ⟨ihsorted, ?_, ?_, ?_⟩
    · intro f hf
      rcases List.mem_cons.mp hf with rfl | hf'
      · rw [ihother f hf0 (Sfb.id st.sfb)]
        exact hm1self
      · exact ihself f hf'
    · intro f hf id
      have hne0 : f ≠ f0 := fun heq => hf (by simp [heq])
      have hnF : f ∉ F := fun hmem => hf (by simp [hmem])
      rw [ihother f hnF id, hm1other f hne0 id]
    · intro f id hne
      rw [ihid f id hne]
      by_cases hf : f = f0
      · subst hf
        exact hm1id id hne
      · exact hm1other f hf id

theorem build_sfbs_by_finger_fold_spec :
    ∀ (l : List (String × SfbStats))
      (m : List (FingerAssignment × List (String × SfbStats))),
      (l.map (·.1)).Nodup → (∀ p ∈ l, by_id_prop p) → fa_sorted m →
      (∀ p ∈ l, ∀ f, sfb_by_finger_get m f p.1 = none) →
      fa_sorted (l.foldl (fun m p => add_sfb_fingers p.2 m) m)
      ∧ ∀ finger id,
          sfb_by_finger_get (l.foldl (fun m p => add_sfb_fingers p.2 m) m)
            finger id
          = (assoc_get l id).elim (sfb_by_finger_get m finger id)
              (fun st => if finger ∈ st.sfb.get_fingers then some st else none) := by
  intro l
  induction l with
  | nil =>
    intro m _ _ hsorted _
    exact ⟨hsorted, fun finger id => rfl⟩
  | cons p l ih =>
    intro m hkeys hP hsorted hfresh
    rcases p with ⟨id₀, st⟩
    rw [List.map_cons] at hkeys
    rcases List.nodup_cons.mp hkeys with ⟨hid₀, hkeys'⟩
    rcases hP (id₀, st) (by simp) with ⟨hid0, hnodupF0⟩
    have hid : Sfb.id st.sfb = id₀ := hid0
    have hnodupF : st.sfb.get_fingers.Nodup := hnodupF0
    have hfresh₀ : ∀ f ∈ st.sfb.get_fingers,
        sfb_by_finger_get m f (Sfb.id st.sfb) = none := by
      intro f _
      rw [hid]
      exact hfresh (id₀, st) (by simp) f
    obtain ⟨haddsorted, haddself, haddother, haddid⟩ :=
      add_sfb_fingers_loop_spec st st.sfb.get_fingers m hnodupF hsorted hfresh₀
    rw [← add_sfb_fingers_eq_loop st m] at haddsorted haddself haddother haddid
    have hfold : (((id₀, st) :: l).foldl (fun m p => add_sfb_fingers p.2 m) m)
        = l.foldl (fun m p => add_sfb_fingers p.2 m) (add_sfb_fingers st m) := rfl
    have hfresh' : ∀ q ∈ l, ∀ f,
        sfb_by_finger_get (add_sfb_fingers st m) f q.1 = none := by
      intro q hq f
      have hqne : q.1 ≠ Sfb.id st.sfb := by
        rw [hid]
        intro heq
        exact hid₀ (heq ▸ List.mem_map.mpr ⟨q, hq, rfl⟩)
      rw [haddid f q.1 hqne]
      exact hfresh q (by simp [hq]) f
    obtain ⟨ihsorted, ihchar⟩ :=
      ih (add_sfb_fingers st m) hkeys' (fun q hq => hP q (by simp [hq]))
        haddsorted hfresh'
    rw [hfold]
    refine ⟨ihsorted, ?_⟩
    intro finger id
    rw [ihchar finger id]
    by_cases hcase : id₀ = id
    · subst hcase
      rw [assoc_get_cons_self]
      have hlnone : assoc_get l id₀ = none := by
        apply assoc_get_eq_none_of
        intro q hq heq
        exact hid₀ (heq ▸ List.mem_map.mpr ⟨q, hq, rfl⟩)
      rw [hlnone, Option.elim_none, Option.elim_some]
      by_cases hfinger : finger ∈ st.sfb.get_fingers
      · rw [if_pos hfinger, ← hid]
        exact haddself finger hfinger
      · rw [if_neg hfinger, ← hid]
        rw [haddother finger hfinger (Sfb.id st.sfb)]
        rw [hid]
        exact hfresh (id₀, st) (by simp) finger
    · rw [assoc_get_cons_ne id₀ id st l hcase]
      cases hl : assoc_get l id with
      | none =>
        rw [Option.elim_none, Option.elim_none]
        have hne : id ≠ Sfb.id st.sfb := by
          rw [hid]
          exact fun heq => hcase heq.symm
        exact haddid finger id hne
      | some st' =>
        rw [Option.elim_some, Option.elim_some]

/-- C8.  For every processed log: looking an identity up under a finger in
the `sfbs_by_finger` index returns exactly the identity's `sfbs_by_id` entry
(with its full occurrence count) when the finger is touched by that entry's
`Sfb`, and nothing otherwise; `sfb_frequency_by_finger` maps that index to
per-finger sums of the filter-surviving counts; and the result is keyed in
strictly increasing `FingerAssignment` order. -/
theorem c8_sfb_by_finger_index (info : InputInfo) (raw : List RawKeylogEntry)
    (stats : KeylogStats) (h : KeylogStats.from_entries info raw = .ok stats)
    (inc : Bool) :
    (∀ finger id, sfb_by_finger_get stats.sfbs_by_finger finger id
        = (assoc_get stats.sfbs_by_id id).elim none
            (fun st => if finger ∈ st.sfb.get_fingers then some st else none))
      ∧ stats.sfb_frequency_by_finger inc
          = stats.sfbs_by_finger.map
              (fun p => (p.1,
                (((p.2.map (·.2)).filter (sfb_filter inc)).map (·.presses)).sum))
      ∧ (stats.sfb_frequency_by_finger inc).Pairwise
          (fun p q => FingerAssignment.cmp p.1 q.1 = .lt) := by
  rcases from_entries_ok h with ⟨entries, -, rfl⟩
  have hby_id_nodup := build_sfbs_by_id_nodup (sfb_series entries)
  have hby_id_prop := build_sfbs_by_id_forall (sfb_series entries)
    (sfb_series_fingers_nodup entries)
  have hfold := build_sfbs_by_finger_fold_spec
    (build_sfbs_by_id (sfb_series entries)) [] hby_id_nodup hby_id_prop
    (List.Pairwise.nil) (fun p _ f => rfl)
  have hbuild : (stats_of_entries entries).sfbs_by_finger
      = build_sfbs_by_finger (build_sfbs_by_id (sfb_series entries)) := rfl
  have hbyid : (stats_of_entries entries).sfbs_by_id
      = build_sfbs_by_id (sfb_series entries) := rfl
  refine ⟨?_, rfl, ?_⟩
  · intro finger id
    rw [hbuild, hbyid, build_sfbs_by_finger, hfold.2 finger id]
    cases assoc_get (build_sfbs_by_id (sfb_series entries)) id with
    | none => rfl
    | some st => rfl
  · have hsorted : fa_sorted ((stats_of_entries entries).sfbs_by_finger) := by
      rw [hbuild, build_sfbs_by_finger]
      exact hfold.1
    rw [KeylogStats.sfb_frequency_by_finger]
    exact (List.pairwise_map).mpr hsorted

/-- C8 witness: the index characterization at the concrete log, checked for
the touched finger and a concrete identity. -/
theorem c8_witness :
    KeylogStats.from_entries testInfo [rA, rB] = .ok testStats
      ∧ (∀ finger id, sfb_by_finger_get testStats.sfbs_by_finger finger id
          = (assoc_get testStats.sfbs_by_id id).elim none
              (fun st => if finger ∈ st.sfb.get_fingers then some st else none))
      ∧ testStats.sfb_frequency_by_finger false
          = testStats.sfbs_by_finger.map
              (fun p => (p.1,
                (((p.2.map (·.2)).filter (sfb_filter false)).map (·.presses)).sum)) :=
  ⟨rfl, (c8_sfb_by_finger_index testInfo [rA, rB] testStats rfl false).1,
    (c8_sfb_by_finger_index testInfo [rA, rB] testStats rfl false).2.1⟩

/-! ## Claim C10: order-sensitivity of the SFB identity string -/

theorem pad_left_data (w : Nat) (s : String) :
    (pad_left w s).data = List.replicate (w - s.length) ' ' ++ s.data := by
  simp [pad_left]

theorem pad_right_data (w : Nat) (s : String) :
    (pad_right w s).data = s.data ++ List.replicate (w - s.length) ' ' := by
  simp [pad_right]

/-- A word commuting with a non-empty run of spaces is all spaces. -/
theorem all_space_of_comm :
    ∀ (n : Nat) (a : List Char), a.length = n → ∀ d, 0 < d →
      List.replicate d ' ' ++ a = a ++ List.replicate d ' ' →
      ∀ c ∈ a, c = ' ' := by
  intro n
  induction n using Nat.strong_induction_on with
  | _ n ih =>
    intro a hlen d hd hcomm c hc
    have ha : a <+: List.replicate d ' ' ++ a := by
      have hpre := List.prefix_append a (List.replicate d ' ')
      rwa [← hcomm] at hpre
    by_cases hle : a.length ≤ d
    · have hpre : a <+: List.replicate d ' ' :=
        List.prefix_of_prefix_length_le ha (List.prefix_append _ _)
          (by simpa using hle)
      exact List.eq_of_mem_replicate (hpre.subset hc)
    · push_neg at hle
      have hrep : List.replicate d ' ' <+: a :=
        List.prefix_of_prefix_length_le (List.prefix_append _ _) ha
          (by simp; omega)
      rcases hrep with ⟨a', ha'⟩
      have hcomm' : List.replicate d ' ' ++ a' = a' ++ List.replicate d ' ' := by
        have hstep : List.replicate d ' ' ++ (List.replicate d ' ' ++ a')
            = (List.replicate d ' ' ++ a') ++ List.replicate d ' ' := by
          rw [ha']
          exact hcomm
        rw [List.append_assoc] at hstep
        exact List.append_cancel_left hstep
      have hlena : d + a'.length = n := by
        have hcong := congrArg List.length ha'
        simpa [hlen] using hcong
      have hall' := ih a'.length (by omega) a' rfl d hd hcomm'
      rw [← ha'] at hc
      rcases List.mem_append.mp hc with h | h
      · exact List.eq_of_mem_replicate h
      · exact hall' c h

/-- Core collision analysis for the two padded fields (identities built from
ids of at most 20 characters): if both the left-padded and the right-padded
renderings of `a` and `b` agree, then `a = b` or both are all-space. -/
theorem pad_core (a b : List Char) (hla : a.length ≤ 20) (hlb : b.length ≤ 20)
    (hle : a.length ≤ b.length)
    (h1 : List.replicate (22 - a.length) ' ' ++ a
        = List.replicate (22 - b.length) ' ' ++ b)
    (h2 : a ++ List.replicate (20 - a.length) ' '
        = b ++ List.replicate (20 - b.length) ' ') :
    a = b ∨ ((∀ c ∈ a, c = ' ') ∧ (∀ c ∈ b, c = ' ')) := by
  have h22 : 22 - a.length = (22 - b.length) + (b.length - a.length) := by omega
  have h20 : 20 - a.length = (b.length - a.length) + (20 - b.length) := by omega
  have hb1 : List.replicate (b.length - a.length) ' ' ++ a = b := by
    rw [h22, List.replicate_add, List.append_assoc] at h1
    exact List.append_cancel_left h1
  have hb2 : a ++ List.replicate (b.length - a.length) ' ' = b := by
    rw [h20, List.replicate_add, ← List.append_assoc] at h2
    exact List.append_cancel_right h2
  by_cases hd0 : b.length - a.length = 0
  · left
    rw [hd0] at hb1
    simpa using hb1
  · right
    have hdpos : 0 < b.length - a.length := Nat.pos_of_ne_zero hd0
    have hcomm : List.replicate (b.length - a.length) ' ' ++ a
        = a ++ List.replicate (b.length - a.length) ' ' := by
      rw [hb1, hb2]
    have hallA : ∀ c ∈ a, c = ' ' :=
      all_space_of_comm a.length a rfl _ hdpos hcomm
    refine ⟨hallA, ?_⟩
    intro c hc
    rw [← hb1] at hc
    rcases List.mem_append.mp hc with h | h
    · exact List.eq_of_mem_replicate h
    · exact hallA c h

/-- C10 counterexample.  Two adjacent same-finger Single events at distinct
physical positions whose keys carry the *same* id string: the pair is
classified as an SFB, yet reversing the temporal order yields the *same*
identity string. -/
def kBsame : Key :=
  { id := "SE_A"
    physical_pos := { col := 1, row := 0, finger := ⟨.ring, .left⟩, effort := 2 }
    matrix_pos := (0, 1) }

theorem c10_counterexample :
    kA.physical_pos.pos ≠ kBsame.physical_pos.pos
      ∧ kA.physical_pos.finger = kBsame.physical_pos.finger
      ∧ KeylogEntry.is_entry_sfb (.single kA "0x01" "_BASE" true 0)
          (.single kBsame "0x01" "_BASE" true 0) = true
      ∧ (Sfb.single kA kBsame kA.physical_pos.finger).id
          = (Sfb.single kBsame kA kA.physical_pos.finger).id :=
  ⟨by decide, by decide, by decide, by decide⟩

/-- C10 (amended).  For adjacent same-finger Single events whose key ids are
*distinct* strings of at most 20 characters that are not both entirely
spaces, reversing the temporal order yields a different SFB identity
string. -/
theorem c10_reversed_identity (A B : Key) (f₁ f₂ : FingerAssignment)
    (hne : A.id ≠ B.id) (hlenA : A.id.length ≤ 20) (hlenB : B.id.length ≤ 20)
    (hblank : ¬((∀ c ∈ A.id.data, c = ' ') ∧ (∀ c ∈ B.id.data, c = ' '))) :
    (Sfb.single A B f₁).id ≠ (Sfb.single B A f₂).id := by
  intro heq
  have h1 : (Sfb.single A B f₁).id
      = pad_left 22 A.id ++ "    " ++ pad_right 20 B.id := rfl
  have h2 : (Sfb.single B A f₂).id
      = pad_left 22 B.id ++ "    " ++ pad_right 20 A.id := rfl
  rw [h1, h2] at heq
  have hdata := congrArg String.data heq
  rw [String.data_append, String.data_append, String.data_append,
    String.data_append, pad_left_data, pad_left_data, pad_right_data,
    pad_right_data] at hdata
  have hlenA' : A.id.data.length = A.id.length := rfl
  have hlenB' : B.id.data.length = B.id.length := rfl
  have hlen1 : (List.replicate (22 - A.id.length) ' ' ++ A.id.data
        ++ "    ".data).length
      = (List.replicate (22 - B.id.length) ' ' ++ B.id.data
        ++ "    ".data).length := by
    simp only [List.length_append, List.length_replicate, hlenA', hlenB']
    omega
  rcases List.append_inj hdata hlen1 with ⟨hfirstsep, hsecond⟩
  have hfirst := List.append_cancel_right hfirstsep
  have hA : A.id.length = A.id.data.length := rfl
  have hB : B.id.length = B.id.data.length := rfl
  rw [hA] at hfirst hsecond hlenA
  rw [hB] at hfirst hsecond hlenB
  rcases Nat.le_total A.id.data.length B.id.data.length with hle | hle
  · rcases pad_core A.id.data B.id.data hlenA hlenB hle hfirst hsecond.symm
        with hab | hall
    · exact hne (String.ext hab)
    · exact hblank hall
  · rcases pad_core B.id.data A.id.data hlenB hlenA hle hfirst.symm hsecond
        with hab | hall
    · exact hne (String.ext hab.symm)
    · exact hblank ⟨hall.2, hall.1⟩

/-- C10 witness: distinct short non-blank ids at concrete keys. -/
theorem c10_witness :
    kA.id ≠ kB.id ∧ kA.id.length ≤ 20 ∧ kB.id.length ≤ 20
      ∧ ¬((∀ c ∈ kA.id.data, c = ' ') ∧ (∀ c ∈ kB.id.data, c = ' '))
      ∧ (Sfb.single kA kB kA.physical_pos.finger).id
          ≠ (Sfb.single kB kA kA.physical_pos.finger).id :=
  ⟨by decide, by decide, by decide, by decide,
    c10_reversed_identity kA kB kA.physical_pos.finger kA.physical_pos.finger
      (by decide) (by decide) (by decide) (by decide)⟩

end LayoutGen
